import Mathlib

/-!
Verification of the goldfinger LCD subsystem (`src/resource/lcd.rs`,
`src/resource.rs`, `src/util.rs`), shallowly embedded in Lean.

Bytes are modelled as `Nat` (the source uses `u8`; no arithmetic is ever
performed on them, only equality and copying, so the embedding is exact on
the values that occur). Frames (`LcdText`) are lists of rows of bytes;
well-formed frames have exactly 4 rows of 20 bytes.
-/

/-- Width of the LCD, in characters (`LCD_WIDTH`). -/
def LCD_WIDTH : Nat := 20

/-- Height of the LCD in lines (`LCD_HEIGHT`). -/
def LCD_HEIGHT : Nat := 4

/-- 32-bit Red-Green-Blue color (`util::Color`). -/
structure Color where
  red : Nat
  green : Nat
  blue : Nat
deriving DecidableEq

/-- `Color::to_bytes`: `[self.red, self.green, self.blue]`. -/
def Color.to_bytes (c : Color) : List Nat := [c.red, c.green, c.blue]

/-- Custom characters used to create jumbo characters (`CustomCharacter`). -/
inductive CustomCharacter
  | HalfBottomRight
  | HalfBottomLeft
  | Bottom
  | FullBottomRight
  | FullBottomLeft
deriving DecidableEq

/-- `CustomCharacter::tag`: the byte representing the character in text. -/
def CustomCharacter.tag : CustomCharacter → Nat
  | .HalfBottomRight => 0x00
  | .HalfBottomLeft => 0x01
  | .Bottom => 0x02
  | .FullBottomRight => 0x03
  | .FullBottomLeft => 0x04

/-- `CustomCharacter::pixels`: 8 rows of 5-bit pixel patterns. -/
def CustomCharacter.pixels : CustomCharacter → List Nat
  | .HalfBottomRight => [0b00000, 0b00000, 0b00000, 0b00000, 0b00011, 0b01111, 0b01111, 0b11111]
  | .HalfBottomLeft => [0b00000, 0b00000, 0b00000, 0b00000, 0b11000, 0b11110, 0b11110, 0b11111]
  | .Bottom => [0b00000, 0b00000, 0b00000, 0b00000, 0b11111, 0b11111, 0b11111, 0b11111]
  | .FullBottomRight => [0b11111, 0b11111, 0b11111, 0b11111, 0b11111, 0b01111, 0b01111, 0b00011]
  | .FullBottomLeft => [0b11111, 0b11111, 0b11111, 0b11111, 0b11111, 0b11110, 0b11110, 0b11000]

/-- Tile byte consts from the source (`HBR`, `HBL`, `BOT`, `FBR`, `FBL`). -/
def HBR : Nat := CustomCharacter.HalfBottomRight.tag
def HBL : Nat := CustomCharacter.HalfBottomLeft.tag
def BOT : Nat := CustomCharacter.Bottom.tag
def FBR : Nat := CustomCharacter.FullBottomRight.tag
def FBL : Nat := CustomCharacter.FullBottomLeft.tag

/-- Solid block, built in to the LCD (`FUL`). -/
def FUL : Nat := 0xff

/-- Empty cell, a space (`EMT`). -/
def EMT : Nat := 32

/-- Non-text commands for the LCD (`LcdCommand`). -/
inductive LcdCommand
  | Clear
  | BacklightOn
  | BacklightOff
  | SetSize (width height : Nat)
  | SetBrightness (brightness : Nat)
  | SetContrast (contrast : Nat)
  | SetColor (color : Color)
  | CursorPos (x y : Nat)
  | SaveCustomCharacter (bank : Nat) (character : CustomCharacter)
  | LoadCharacterBank (bank : Nat)
deriving DecidableEq

/-- `LcdCommand::COMMAND_BYTE`: the sentinel starting every command. -/
def COMMAND_BYTE : Nat := 0xFE

/-- `LcdCommand::tag`: the one-byte identifier for a command type. -/
def LcdCommand.tag : LcdCommand → Nat
  | .Clear => 0x58
  | .BacklightOn => 0x42
  | .BacklightOff => 0x46
  | .SetSize _ _ => 0xD1
  | .SetBrightness _ => 0x98
  | .SetContrast _ => 0x91
  | .SetColor _ => 0xD0
  | .CursorPos _ _ => 0x47
  | .SaveCustomCharacter _ _ => 0xC1
  | .LoadCharacterBank _ => 0xC0

/-- The bytes written into the buffer after `[COMMAND_BYTE, tag]` by the
match in `LcdCommand::into_bytes`. -/
def LcdCommand.params : LcdCommand → List Nat
  | .Clear => []
  | .BacklightOn => [0]
  | .BacklightOff => []
  | .SetSize width height => [width, height]
  | .SetBrightness brightness => [brightness]
  | .SetContrast contrast => [contrast]
  | .SetColor color => color.to_bytes
  | .CursorPos x y => [x, y]
  | .SaveCustomCharacter bank character => [0xC1, bank, character.tag] ++ character.pixels
  | .LoadCharacterBank bank => [bank]

/-- `LcdCommand::into_bytes`: sentinel byte, tag byte, then the
variant-specific parameter bytes. -/
def LcdCommand.into_bytes (c : LcdCommand) : List Nat :=
  COMMAND_BYTE :: c.tag :: c.params

/-- `Lcd::set_color`: given the stored color and a requested color, the new
stored color and the commands sent. Does nothing if the color is unchanged. -/
def set_color (current requested : Color) : Color × List LcdCommand :=
  if current ≠ requested then (requested, [LcdCommand.SetColor requested])
  else (current, [])

/-- `get_jumbo_character`: the 3 tile rows for one jumbo character, or an
error (`none`) for an unsupported byte. Byte values: '0'..'9' = 48..57,
' ' = 32, ':' = 58. -/
def get_jumbo_character (character : Nat) : Option (List (List Nat)) :=
  if character = 48 then some [[HBR, BOT, HBL], [FUL, EMT, FUL], [FBR, BOT, FBL]]
  else if character = 49 then some [[BOT, HBL, EMT], [EMT, FUL, EMT], [BOT, FUL, BOT]]
  else if character = 50 then some [[HBR, BOT, HBL], [HBR, BOT, FBL], [FBR, BOT, BOT]]
  else if character = 51 then some [[HBR, BOT, HBL], [EMT, BOT, FUL], [BOT, BOT, FBL]]
  else if character = 52 then some [[BOT, EMT, BOT], [FBR, BOT, FUL], [EMT, EMT, FUL]]
  else if character = 53 then some [[BOT, BOT, BOT], [FUL, BOT, HBL], [BOT, BOT, FBL]]
  else if character = 54 then some [[HBR, BOT, HBL], [FUL, BOT, HBL], [FBR, BOT, FBL]]
  else if character = 55 then some [[BOT, BOT, BOT], [EMT, HBR, FBL], [EMT, FUL, EMT]]
  else if character = 56 then some [[HBR, BOT, HBL], [FUL, BOT, FUL], [FBR, BOT, FBL]]
  else if character = 57 then some [[HBR, BOT, HBL], [FBR, BOT, FUL], [EMT, EMT, FUL]]
  else if character = 32 then some [[EMT, EMT, EMT], [EMT, EMT, EMT], [EMT, EMT, EMT]]
  else if character = 58 then some [[FUL], [EMT], [FUL]]
  else none

/-- A group of contiguous characters in a text block (`TextGroup`). -/
structure TextGroup where
  x : Nat
  y : Nat
  length : Nat
deriving DecidableEq

/-- `TextGroup::new`: a fresh group of length 1 at `(x, y)`. -/
def TextGroup.new (x y : Nat) : TextGroup := ⟨x, y, 1⟩

/-- `TextGroup::extend`: bump the group length by one. -/
def TextGroup.extend (g : TextGroup) : TextGroup := ⟨g.x, g.y, g.length + 1⟩

/-- The inner loop of `Lcd::set_text` over one row `y`, starting at column
`x` with an optional open diff group `cur`. Walks the old row and the new
row in lockstep; on equal bytes the open group is finished (pushed), on a
differing byte the new byte is stored in the buffer and the group is opened
or extended. At the end of the row the open group is finished. Returns the
updated buffer row and the finished groups in scan order. -/
def rowScan (y : Nat) : Nat → List Nat → List Nat → Option TextGroup →
    List Nat × List TextGroup
  | _, os, [], cur => (os, cur.toList)
  | _, [], _ :: _, cur => ([], cur.toList)
  | x, o :: os, n :: ns, cur =>
    if o = n then
      let rest := rowScan y (x + 1) os ns none
      (o :: rest.1, cur.toList ++ rest.2)
    else
      let g := match cur with
        | none => TextGroup.new x y
        | some g => g.extend
      let rest := rowScan y (x + 1) os ns (some g)
      (n :: rest.1, rest.2)

/-- The outer loop of `Lcd::set_text`: scan the rows top to bottom, starting
at row index `y`. Returns the updated buffer and all diff groups in scan
order. -/
def setTextGo (y : Nat) : List (List Nat) → List (List Nat) →
    List (List Nat) × List TextGroup
  | os, [] => (os, [])
  | [], _ :: _ => ([], [])
  | o :: os, n :: ns =>
    let row := rowScan y 0 o n none
    let rest := setTextGo (y + 1) os ns
    (row.1 :: rest.1, row.2 ++ rest.2)

/-- `Lcd::set_text` as a pure transform: given the current buffer and the
new frame, the updated buffer and the list of diff groups whose bytes get
written to the device. -/
def setText (old new : List (List Nat)) : List (List Nat) × List TextGroup :=
  setTextGo 0 old new

/-- `LcdText::default` / `LcdText::clear`: all-space frame. -/
def blankText : List (List Nat) := List.replicate LCD_HEIGHT (List.replicate LCD_WIDTH 32)

/-- A frame has exactly `LCD_HEIGHT` rows of exactly `LCD_WIDTH` bytes. -/
def wellFormed (t : List (List Nat)) : Prop :=
  t.length = LCD_HEIGHT ∧ ∀ row ∈ t, row.length = LCD_WIDTH

instance (t : List (List Nat)) : Decidable (wellFormed t) := by
  unfold wellFormed; infer_instance

/-- Group `g` covers cell `(x, y)` (column `x`, row `y`). -/
def groupCovers (g : TextGroup) (x y : Nat) : Prop :=
  g.y = y ∧ g.x ≤ x ∧ x < g.x + g.length

instance (g : TextGroup) (x y : Nat) : Decidable (groupCovers g x y) := by
  unfold groupCovers; infer_instance

/-- Some group in the list covers cell `(x, y)`. -/
def coveredBy (gs : List TextGroup) (x y : Nat) : Prop :=
  ∃ g ∈ gs, groupCovers g x y

instance (gs : List TextGroup) (x y : Nat) : Decidable (coveredBy gs x y) := by
  unfold coveredBy; infer_instance

/-- Overwrite `row` starting at column `x` with `bytes` (writes past the end
of the row are dropped). Models a positioned write within one row. -/
def writeBytes : List Nat → Nat → List Nat → List Nat
  | row, _, [] => row
  | [], _, _ :: _ => []
  | _ :: rs, 0, b :: bs => b :: writeBytes rs 0 bs
  | r :: rs, x + 1, bs => r :: writeBytes rs x bs

/-- Replace row `y` of a frame. -/
def setRow : List (List Nat) → Nat → List Nat → List (List Nat)
  | [], _, _ => []
  | _ :: rs, 0, newRow => newRow :: rs
  | r :: rs, y + 1, newRow => r :: setRow rs y newRow

/-- `row[x..x + len]`, as used by `LcdText::get_slice`. -/
def sliceRow : List Nat → Nat → Nat → List Nat
  | _, _, 0 => []
  | [], _, _ + 1 => []
  | r :: rs, 0, len + 1 => r :: sliceRow rs 0 len
  | _ :: rs, x + 1, len => sliceRow rs x len

/-- `LcdText::get`: the byte at column `x` of row `y`. -/
def getCell (t : List (List Nat)) (x y : Nat) : Nat :=
  (t.getD y []).getD x 0

/-- The bytes transmitted for a diff group: a slice of the updated buffer
(`self.text.get_slice(&group)`). -/
def groupBytes (buf : List (List Nat)) (g : TextGroup) : List Nat :=
  sliceRow (buf.getD g.y []) g.x g.length

/-- Apply one positioned group write to a screen: the group's slice of the
updated buffer `buf` is written at `(g.x, g.y)`. -/
def applyGroup (buf : List (List Nat)) (screen : List (List Nat)) (g : TextGroup) :
    List (List Nat) :=
  setRow screen g.y (writeBytes (screen.getD g.y []) g.x (groupBytes buf g))

/-- Apply every group write in order. -/
def applyGroups (buf : List (List Nat)) (screen : List (List Nat))
    (gs : List TextGroup) : List (List Nat) :=
  gs.foldl (applyGroup buf) screen

/-- `Lcd::on_tick` in `LcdMode::Off`: the new internal text buffer and the
commands sent, in order. The backlight is turned off, the device is
cleared, and the internal buffer is reset to blank. -/
def onTickOff (_text : List (List Nat)) : List (List Nat) × List LcdCommand :=
  (blankText, [LcdCommand.BacklightOff, LcdCommand.Clear])

/-- `impl Drop for Lcd`: the commands sent and the log lines emitted when
the resource is destroyed. The body is only
`info!("Closing resource {}", self.name())`. -/
def lcdDrop : List LcdCommand × List String :=
  ([], ["Closing resource LCD"])

/-- The tick loop of `Resource::spawn_task`, run against a finite window of
scheduled tick outcomes: `loop { self.on_tick(..)?; interval.tick().await }`
with the `?` propagating out of the loop to
`error!("Resource {} failed with {}", ..)`. Returns the number of ticks
that actually executed and the error log lines emitted. -/
def spawnTaskRun : List (Except String Unit) → Nat × List String
  | [] => (0, [])
  | Except.ok _ :: rest =>
    let r := spawnTaskRun rest
    (r.1 + 1, r.2)
  | Except.error e :: _ => (1, ["Resource LCD failed with " ++ e])

/-- `x_len` in `write_jumbo_text`: the width of a jumbo character, the
maximum tile-row length within its definition (0 if empty). -/
def jumboWidth (tiles : List (List Nat)) : Nat :=
  (tiles.map List.length).foldr max 0

/-- The loop of `write_jumbo_text`: place each character's three tile rows
into the three line buffers at the running column offset `x`, then advance
`x` by the character's width plus one space. Fails on an unsupported
character. Returns the updated line buffers and the final offset. -/
def writeJumboGo (lines : List (List Nat)) (x : Nat) :
    List Nat → Option (List (List Nat) × Nat)
  | [] => some (lines, x)
  | c :: cs =>
    match get_jumbo_character c with
    | none => none
    | some tiles =>
      let w := jumboWidth tiles
      let lines' := List.zipWith (fun l t => writeBytes l x t) lines tiles
      writeJumboGo lines' (x + w + 1) cs

/-- `write_jumbo_text`: render a byte string as jumbo text into a 3-line
buffer, returning the buffer and the total rendered width. -/
def write_jumbo_text (lines : List (List Nat)) (text : List Nat) :
    Option (List (List Nat) × Nat) :=
  writeJumboGo lines 0 text

/-- The 3-row jumbo line buffer, blank, at full device width (as in the
source's `test_jumbo_text`). -/
def blank3 : List (List Nat) := List.replicate 3 (List.replicate LCD_WIDTH 32)

/-- The byte string `"10:23"`. -/
def str1023 : List Nat := [49, 48, 58, 50, 51]

/-- The expected jumbo rendering of `"10:23"` (the source's
`test_jumbo_text` expectation). -/
def jumboExpected : List (List Nat) :=
  [[BOT, HBL, EMT, EMT, HBR, BOT, HBL, EMT, FUL, EMT,
    HBR, BOT, HBL, EMT, HBR, BOT, HBL, EMT, EMT, EMT],
   [EMT, FUL, EMT, EMT, FUL, EMT, FUL, EMT, EMT, EMT,
    HBR, BOT, FBL, EMT, EMT, BOT, FUL, EMT, EMT, EMT],
   [BOT, FUL, BOT, EMT, FBR, BOT, FBL, EMT, FUL, EMT,
    FBR, BOT, BOT, EMT, BOT, BOT, FBL, EMT, EMT, EMT]]

/-- A concrete well-formed sample frame. -/
def demoFrame : List (List Nat) :=
  [[72, 101, 108, 108, 111] ++ List.replicate 15 32,
   List.replicate 20 32,
   [32, 2, 1, 32] ++ List.replicate 16 32,
   List.replicate 20 88]

/-- A concrete well-formed frame with a blank cell at `(0, 0)` and no other
blank cell, as a possible frame drawn right after an `Off` tick. -/
def offThenFrame : List (List Nat) :=
  [32 :: List.replicate 19 88,
   List.replicate 20 88,
   List.replicate 20 88,
   List.replicate 20 88]

/-- Sample colors. -/
def colorA : Color := ⟨255, 0, 0⟩
def colorB : Color := ⟨0, 0, 255⟩

/-! ### Helper lemmas -/

lemma coveredBy_append (a b : List TextGroup) (p q : Nat) :
    coveredBy (a ++ b) p q ↔ coveredBy a p q ∨ coveredBy b p q := by
  simp only [coveredBy, List.mem_append]
  constructor
  · rintro ⟨g, hg | hg, hc⟩
    · exact Or.inl ⟨g, hg, hc⟩
    · exact Or.inr ⟨g, hg, hc⟩
  · rintro (⟨g, hg, hc⟩ | ⟨g, hg, hc⟩)
    · exact ⟨g, Or.inl hg, hc⟩
    · exact ⟨g, Or.inr hg, hc⟩

lemma coveredBy_cons (g : TextGroup) (gs : List TextGroup) (p q : Nat) :
    coveredBy (g :: gs) p q ↔ groupCovers g p q ∨ coveredBy gs p q := by
  simp [coveredBy]

/-- The buffer row after a row scan is the new row, when the rows have equal
length: every cell is either unchanged or overwritten with the new byte. -/
lemma rowScan_fst (y : Nat) (os : List Nat) :
    ∀ (ns : List Nat) (x : Nat) (cur : Option TextGroup),
    os.length = ns.length → (rowScan y x os ns cur).1 = ns := by
  induction os with
  | nil =>
    intro ns x cur h
    cases ns with
    | nil => simp [rowScan]
    | cons n ns => simp at h
  | cons o os ih =>
    intro ns x cur h
    cases ns with
    | nil => simp at h
    | cons n ns =>
      simp only [List.length_cons, Nat.add_right_cancel_iff] at h
      by_cases hon : o = n
      · simp only [rowScan, if_pos hon]
        simpa [hon] using ih ns (x + 1) none h
      · simp only [rowScan, if_neg hon]
        simpa using ih ns (x + 1) _ h

/-- Every group produced by a row scan carries the scanned row index. -/
lemma rowScan_snd_y (y : Nat) (os : List Nat) :
    ∀ (ns : List Nat) (x : Nat) (cur : Option TextGroup),
    (∀ g₀, cur = some g₀ → g₀.y = y) →
    ∀ g ∈ (rowScan y x os ns cur).2, g.y = y := by
  induction os with
  | nil =>
    intro ns x cur hcur g hg
    cases ns with
    | nil =>
      simp only [rowScan] at hg
      cases cur with
      | none => simp at hg
      | some g₀ => simp at hg; exact hg ▸ hcur g₀ rfl
    | cons n ns =>
      simp only [rowScan] at hg
      cases cur with
      | none => simp at hg
      | some g₀ => simp at hg; exact hg ▸ hcur g₀ rfl
  | cons o os ih =>
    intro ns x cur hcur g hg
    cases ns with
    | nil =>
      simp only [rowScan] at hg
      cases cur with
      | none => simp at hg
      | some g₀ => simp at hg; exact hg ▸ hcur g₀ rfl
    | cons n ns =>
      by_cases hon : o = n
      · simp only [rowScan, if_pos hon] at hg
        rcases (List.mem_append.mp hg) with hmem | hmem
        · cases cur with
          | none => simp at hmem
          | some g₀ => simp at hmem; exact hmem ▸ hcur g₀ rfl
        · exact ih ns (x + 1) none (by intro g₀ h; cases h) g hmem
      · simp only [rowScan, if_neg hon] at hg
        cases cur with
        | none =>
          exact ih ns (x + 1) (some (TextGroup.new x y))
            (by intro g₀ h; cases h; rfl) g hg
        | some g₀ =>
          exact ih ns (x + 1) (some g₀.extend)
            (by intro g₁ h; cases h; exact hcur g₀ rfl) g hg

/-- Every group produced by a row scan stays within the scanned columns. -/
lemma rowScan_bounds (y : Nat) (os : List Nat) :
    ∀ (ns : List Nat) (x : Nat) (cur : Option TextGroup),
    (∀ g₀, cur = some g₀ → g₀.x + g₀.length ≤ x) →
    ∀ g ∈ (rowScan y x os ns cur).2, g.x + g.length ≤ x + os.length := by
  induction os with
  | nil =>
    intro ns x cur hcur g hg
    cases ns with
    | nil =>
      simp only [rowScan] at hg
      cases cur with
      | none => simp at hg
      | some g₀ => simp at hg; simpa [hg] using hcur g₀ rfl
    | cons n ns =>
      simp only [rowScan] at hg
      cases cur with
      | none => simp at hg
      | some g₀ => simp at hg; simpa [hg] using hcur g₀ rfl
  | cons o os ih =>
    intro ns x cur hcur g hg
    cases ns with
    | nil =>
      simp only [rowScan] at hg
      cases cur with
      | none => simp at hg
      | some g₀ =>
        simp at hg
        calc g.x + g.length ≤ x := by simpa [hg] using hcur g₀ rfl
          _ ≤ x + (o :: os).length := Nat.le_add_right ..
    | cons n ns =>
      have harith : x + 1 + os.length = x + (o :: os).length := by
        simp [List.length_cons]; omega
      by_cases hon : o = n
      · simp only [rowScan, if_pos hon] at hg
        rcases (List.mem_append.mp hg) with hmem | hmem
        · cases cur with
          | none => simp at hmem
          | some g₀ =>
            simp at hmem
            calc g.x + g.length ≤ x := by simpa [hmem] using hcur g₀ rfl
              _ ≤ x + (o :: os).length := Nat.le_add_right ..
        · have := ih ns (x + 1) none (by intro g₀ h; cases h) g hmem
          omega
      · simp only [rowScan, if_neg hon] at hg
        cases cur with
        | none =>
          have := ih ns (x + 1) (some (TextGroup.new x y))
            (by intro g₀ h; cases h; simp [TextGroup.new]) g hg
          omega
        | some g₀ =>
          have := ih ns (x + 1) (some g₀.extend)
            (by intro g₁ h; cases h; have := hcur g₀ rfl; simp [TextGroup.extend]; omega) g hg
          omega


/-- Coverage by the open group of a scan, under the invariant that the open
group ends exactly at the current column `x`. -/
lemma coveredBy_curToList (cur : Option TextGroup) (x p y : Nat)
    (hcur : ∀ g₀, cur = some g₀ → g₀.y = y ∧ g₀.x + g₀.length = x) :
    (coveredBy cur.toList p y ↔ ∃ g₀, cur = some g₀ ∧ g₀.x ≤ p ∧ p < x) := by
  cases cur with
  | none => simp [coveredBy]
  | some g₀ =>
    obtain ⟨hy, hxl⟩ := hcur g₀ rfl
    simp only [Option.toList_some, coveredBy, List.mem_singleton, exists_eq_left,
      exists_eq_left', groupCovers, Option.some.injEq]
    constructor
    · rintro ⟨_, h1, h2⟩
      exact ⟨h1, by omega⟩
    · rintro ⟨h1, h2⟩
      exact ⟨hy, h1, by omega⟩

/-- Splitting a cell-diff search over a cons of both rows. -/
lemma exists_diff_cons (o n : Nat) (os ns : List Nat) (x p : Nat) :
    (∃ i, i < (o :: os).length ∧ p = x + i ∧ (o :: os).getD i 0 ≠ (n :: ns).getD i 0) ↔
      ((p = x ∧ o ≠ n) ∨
       (∃ i, i < os.length ∧ p = (x + 1) + i ∧ os.getD i 0 ≠ ns.getD i 0)) := by
  constructor
  · rintro ⟨i, hi, hp, hne⟩
    cases i with
    | zero => exact Or.inl ⟨by omega, by simpa using hne⟩
    | succ j =>
      refine Or.inr ⟨j, ?_, by omega, by simpa using hne⟩
      simp only [List.length_cons] at hi
      omega
  · rintro (⟨hp, hne⟩ | ⟨j, hj, hp, hne⟩)
    · exact ⟨0, by simp, by omega, by simpa using hne⟩
    · refine ⟨j + 1, ?_, by omega, by simpa using hne⟩
      simp only [List.length_cons]
      omega

/-- Exact characterization of the cells covered by the groups of a row
scan: a cell of row `y` is covered iff it lies under the open group, or it
is a position at or beyond `x` where the remaining old and new bytes
differ. -/
lemma rowScan_cover (y : Nat) (os : List Nat) :
    ∀ (ns : List Nat) (x : Nat) (cur : Option TextGroup) (p : Nat),
    os.length = ns.length →
    (∀ g₀, cur = some g₀ → g₀.y = y ∧ g₀.x + g₀.length = x) →
    (coveredBy (rowScan y x os ns cur).2 p y ↔
      ((∃ g₀, cur = some g₀ ∧ g₀.x ≤ p ∧ p < x) ∨
       (∃ i, i < os.length ∧ p = x + i ∧ os.getD i 0 ≠ ns.getD i 0))) := by
  induction os with
  | nil =>
    intro ns x cur p hlen hcur
    cases ns with
    | cons n ns => simp at hlen
    | nil =>
      simp only [rowScan, List.length_nil]
      rw [coveredBy_curToList cur x p y hcur]
      constructor
      · exact Or.inl
      · rintro (h | ⟨i, hi, _⟩)
        · exact h
        · omega
  | cons o os ih =>
    intro ns x cur p hlen hcur
    cases ns with
    | nil => simp at hlen
    | cons n ns =>
      simp only [List.length_cons, Nat.add_right_cancel_iff] at hlen
      rw [exists_diff_cons]
      by_cases hon : o = n
      · simp only [rowScan, if_pos hon]
        rw [coveredBy_append, coveredBy_curToList cur x p y hcur,
          ih ns (x + 1) none p hlen (by intro g₀ h; cases h)]
        have enone : (∃ g₀, (none : Option TextGroup) = some g₀ ∧ g₀.x ≤ p ∧ p < x + 1)
            ↔ False := by simp
        have econs : (p = x ∧ o ≠ n) ↔ False := by simp [hon]
        rw [enone, econs, false_or]
      · simp only [rowScan, if_neg hon]
        have econs : (p = x ∧ o ≠ n) ↔ p = x := by simp [hon]
        cases cur with
        | none =>
          rw [ih ns (x + 1) (some (TextGroup.new x y)) p hlen
            (by intro g₀ h; cases h; exact ⟨rfl, rfl⟩)]
          have eleft : (∃ g₀, some (TextGroup.new x y) = some g₀ ∧ g₀.x ≤ p ∧ p < x + 1)
              ↔ p = x := by
            simp only [Option.some.injEq, exists_eq_left', TextGroup.new]
            omega
          have eright : (∃ g₀, (none : Option TextGroup) = some g₀ ∧ g₀.x ≤ p ∧ p < x)
              ↔ False := by simp
          rw [eleft, eright, econs, false_or]
        | some g₀ =>
          obtain ⟨hy, hxl⟩ := hcur g₀ rfl
          rw [ih ns (x + 1) (some g₀.extend) p hlen
            (by intro g₁ h; cases h; exact ⟨hy, by simp [TextGroup.extend]; omega⟩)]
          have eleft : (∃ g₁, some g₀.extend = some g₁ ∧ g₁.x ≤ p ∧ p < x + 1)
              ↔ (g₀.x ≤ p ∧ p < x + 1) := by
            simp [TextGroup.extend]
          have eright : (∃ g₁, some g₀ = some g₁ ∧ g₁.x ≤ p ∧ p < x)
              ↔ (g₀.x ≤ p ∧ p < x) := by simp
          rw [eleft, eright, econs]
          constructor
          · rintro (⟨h1, h2⟩ | h)
            · by_cases hx : p < x
              · exact Or.inl ⟨h1, hx⟩
              · exact Or.inr (Or.inl (by omega))
            · exact Or.inr (Or.inr h)
          · rintro (⟨h1, h2⟩ | h | h)
            · exact Or.inl ⟨h1, by omega⟩
            · exact Or.inl ⟨by omega, by omega⟩
            · exact Or.inr h

/-- A full-row scan covers cell `(p, q)` iff `q` is the scanned row and the
old and new rows differ at column `p`. -/
lemma rowScan_cover_q (y : Nat) (os ns : List Nat) (hlen : os.length = ns.length)
    (p q : Nat) :
    coveredBy (rowScan y 0 os ns none).2 p q ↔
      (q = y ∧ p < os.length ∧ os.getD p 0 ≠ ns.getD p 0) := by
  by_cases hq : q = y
  · rw [hq]
    rw [rowScan_cover y os ns 0 none p hlen (by intro g₀ h; cases h)]
    constructor
    · rintro (⟨g₀, h, _⟩ | ⟨i, hi, hp, hne⟩)
      · cases h
      · subst hp
        exact ⟨rfl, by omega, by simpa using hne⟩
    · rintro ⟨_, hp, hne⟩
      exact Or.inr ⟨p, hp, by omega, hne⟩
  · constructor
    · rintro ⟨g, hg, hcov⟩
      have hgy := rowScan_snd_y y os ns 0 none (by intro g₀ h; cases h) g hg
      exact absurd (hcov.1 ▸ hgy) hq
    · rintro ⟨hqy, _⟩
      exact absurd hqy hq

/-- Coverage for the outer scan loop: cell `(p, q)` is covered iff `q` names
one of the scanned rows and that row differs from its replacement at
column `p`. -/
lemma setTextGo_cover (os : List (List Nat)) :
    ∀ (ns : List (List Nat)) (y p q : Nat),
    List.Forall₂ (fun o n => o.length = n.length) os ns →
    (coveredBy (setTextGo y os ns).2 p q ↔
      ∃ j, j < os.length ∧ q = y + j ∧ p < (os.getD j []).length ∧
        (os.getD j []).getD p 0 ≠ (ns.getD j []).getD p 0) := by
  induction os with
  | nil =>
    intro ns y p q h
    cases h
    simp [setTextGo, coveredBy]
  | cons o os ih =>
    intro ns y p q h
    cases h with
    | cons h1 h2 =>
      rename_i n ns
      simp only [setTextGo]
      rw [coveredBy_append, rowScan_cover_q y o n h1 p q, ih ns (y + 1) p q h2]
      constructor
      · rintro (⟨hqy, hp, hne⟩ | ⟨j, hj, hq, hp, hne⟩)
        · exact ⟨0, by simp, by omega, by simpa using hp, by simpa using hne⟩
        · refine ⟨j + 1, ?_, by omega, by simpa using hp, by simpa using hne⟩
          simp only [List.length_cons]
          omega
      · rintro ⟨j, hj, hq, hp, hne⟩
        cases j with
        | zero =>
          exact Or.inl ⟨by omega, by simpa using hp, by simpa using hne⟩
        | succ j =>
          refine Or.inr ⟨j, ?_, by omega, by simpa using hp, by simpa using hne⟩
          simp only [List.length_cons] at hj
          omega

/-- The buffer after the outer scan loop equals the new frame, when rows
pair up with equal lengths. -/
lemma setTextGo_fst (os : List (List Nat)) :
    ∀ (ns : List (List Nat)) (y : Nat),
    List.Forall₂ (fun o n => o.length = n.length) os ns →
    (setTextGo y os ns).1 = ns := by
  induction os with
  | nil =>
    intro ns y h
    cases h
    simp [setTextGo]
  | cons o os ih =>
    intro ns y h
    cases h with
    | cons h1 h2 =>
      rename_i n ns
      simp only [setTextGo]
      rw [rowScan_fst y o n 0 none h1, ih ns (y + 1) h2]

/-- Bounds for the outer scan loop: every group lies in a scanned row and
within the scanned row's width. -/
lemma setTextGo_bounds (os : List (List Nat)) :
    ∀ (ns : List (List Nat)) (y : Nat),
    (∀ row ∈ os, row.length = LCD_WIDTH) →
    ∀ g ∈ (setTextGo y os ns).2,
      (y ≤ g.y ∧ g.y < y + os.length) ∧ g.x + g.length ≤ LCD_WIDTH := by
  induction os with
  | nil =>
    intro ns y _ g hg
    cases ns with
    | nil => simp [setTextGo] at hg
    | cons n ns => simp [setTextGo] at hg
  | cons o os ih =>
    intro ns y hrows g hg
    cases ns with
    | nil => simp [setTextGo] at hg
    | cons n ns =>
      simp only [setTextGo] at hg
      rcases List.mem_append.mp hg with hmem | hmem
      · have hy := rowScan_snd_y y o n 0 none (by intro g₀ h; cases h) g hmem
        have hb := rowScan_bounds y o n 0 none (by intro g₀ h; cases h) g hmem
        have hlen : o.length = LCD_WIDTH := hrows o (by simp)
        refine ⟨⟨by omega, ?_⟩, by omega⟩
        simp only [List.length_cons]
        omega
      · have := ih ns (y + 1) (by intro r hr; exact hrows r (by simp [hr])) g hmem
        refine ⟨⟨by omega, ?_⟩, this.2⟩
        have := this.1
        simp only [List.length_cons]
        omega

/-- Row lists of equal shape pair up with equal lengths. -/
lemma rows_forall₂ (A : List (List Nat)) :
    ∀ (B : List (List Nat)), A.length = B.length →
    (∀ r ∈ A, r.length = LCD_WIDTH) → (∀ r ∈ B, r.length = LCD_WIDTH) →
    List.Forall₂ (fun o n => o.length = n.length) A B := by
  induction A with
  | nil =>
    intro B h _ _
    cases B with
    | nil => exact List.Forall₂.nil
    | cons b B => simp at h
  | cons a A ih =>
    intro B h hA hB
    cases B with
    | nil => simp at h
    | cons b B =>
      simp only [List.length_cons, Nat.add_right_cancel_iff] at h
      refine List.Forall₂.cons ?_ (ih B h ?_ ?_)
      · rw [hA a (by simp), hB b (by simp)]
      · intro r hr; exact hA r (by simp [hr])
      · intro r hr; exact hB r (by simp [hr])

lemma wf_forall₂ {A B : List (List Nat)} (hA : wellFormed A) (hB : wellFormed B) :
    List.Forall₂ (fun o n => o.length = n.length) A B :=
  rows_forall₂ A B (by rw [hA.1, hB.1]) hA.2 hB.2

/-- In a well-formed frame every row index below the height names a row of
the full width. -/
lemma wf_row_len {t : List (List Nat)} (h : wellFormed t) {q : Nat}
    (hq : q < LCD_HEIGHT) : (t.getD q []).length = LCD_WIDTH := by
  have hlen : q < t.length := by rw [h.1]; exact hq
  rw [List.getD_eq_getElem _ _ hlen]
  exact h.2 _ (List.getElem_mem hlen)

/-- `writeBytes` never changes the length of the row. -/
lemma writeBytes_length (row : List Nat) :
    ∀ (x : Nat) (bs : List Nat), (writeBytes row x bs).length = row.length := by
  induction row with
  | nil =>
    intro x bs
    cases bs <;> simp [writeBytes]
  | cons r rs ih =>
    intro x bs
    cases bs with
    | nil => simp [writeBytes]
    | cons b bs =>
      cases x with
      | zero => simp [writeBytes, ih]
      | succ x => simp [writeBytes, ih]

/-- Cell-level description of `writeBytes`: inside the written window the
new bytes appear, outside the row is untouched. -/
lemma writeBytes_getD (row : List Nat) :
    ∀ (x : Nat) (bs : List Nat) (p : Nat),
    (writeBytes row x bs).getD p 0 =
      if x ≤ p ∧ p < x + bs.length ∧ p < row.length then bs.getD (p - x) 0
      else row.getD p 0 := by
  induction row with
  | nil =>
    intro x bs p
    cases bs with
    | nil => simp [writeBytes]
    | cons b bs => simp [writeBytes]
  | cons r rs ih =>
    intro x bs p
    cases bs with
    | nil =>
      simp only [writeBytes, List.length_nil]
      rw [if_neg]
      omega
    | cons b bs =>
      cases x with
      | zero =>
        cases p with
        | zero => simp [writeBytes]
        | succ q =>
          simp only [writeBytes, List.getD_cons_succ, ih 0 bs q, List.length_cons]
          split_ifs with h1 h2 h2 <;> first
            | omega
            | rfl
      | succ x =>
        cases p with
        | zero =>
          simp only [writeBytes, List.getD_cons_zero]
          rw [if_neg]
          omega
        | succ q =>
          simp only [writeBytes, List.getD_cons_succ, ih x (b :: bs) q, List.length_cons]
          split_ifs with h1 h2 h2 <;> first
            | omega
            | rfl
            | (congr 1; omega)

/-- `setRow` never changes the number of rows. -/
lemma setRow_length (t : List (List Nat)) :
    ∀ (y : Nat) (r : List Nat), (setRow t y r).length = t.length := by
  induction t with
  | nil => intro y r; simp [setRow]
  | cons h ts ih =>
    intro y r
    cases y with
    | zero => simp [setRow]
    | succ y => simp [setRow, ih]

/-- Row-level description of `setRow`. -/
lemma setRow_getD (t : List (List Nat)) :
    ∀ (y : Nat) (r : List Nat) (q : Nat),
    (setRow t y r).getD q [] =
      if q = y ∧ y < t.length then r else t.getD q [] := by
  induction t with
  | nil =>
    intro y r q
    simp [setRow]
  | cons h ts ih
  =>
    intro y r q
    cases y with
    | zero =>
      cases q with
      | zero => simp [setRow]
      | succ q =>
        simp only [setRow, List.getD_cons_succ]
        rw [if_neg]
        omega
    | succ y =>
      cases q with
      | zero =>
        simp only [setRow, List.getD_cons_zero]
        rw [if_neg]
        omega
      | succ q =>
        simp only [setRow, List.getD_cons_succ, ih y r q, List.length_cons]
        split_ifs with h1 h2 h2 <;> first
          | rfl
          | omega

/-- Every row of `setRow t y r` is `r` or one of the rows of `t`. -/
lemma setRow_mem (t : List (List Nat)) :
    ∀ (y : Nat) (r row : List Nat), row ∈ setRow t y r → row = r ∨ row ∈ t := by
  induction t with
  | nil => intro y r row h; simp [setRow] at h
  | cons h ts ih =>
    intro y r row hmem
    cases y with
    | zero =>
      rcases List.mem_cons.mp hmem with h1 | h1
      · exact Or.inl h1
      · exact Or.inr (by simp [h1])
    | succ y =>
      rcases List.mem_cons.mp hmem with h1 | h1
      · exact Or.inr (by simp [h1])
      · rcases ih y r row h1 with h2 | h2
        · exact Or.inl h2
        · exact Or.inr (by simp [h2])

/-- `sliceRow` of an in-bounds window has the window's length. -/
lemma sliceRow_length (row : List Nat) :
    ∀ (x len : Nat), x + len ≤ row.length → (sliceRow row x len).length = len := by
  induction row with
  | nil =>
    intro x len h
    cases len with
    | zero => simp [sliceRow]
    | succ len => simp at h
  | cons r rs ih =>
    intro x len h
    cases len with
    | zero => simp [sliceRow]
    | succ len =>
      cases x with
      | zero =>
        simp only [sliceRow, List.length_cons, ih 0 len (by simp at h; omega)]
      | succ x =>
        simp only [sliceRow]
        exact ih x (len + 1) (by simp at h; omega)

/-- Cell-level description of `sliceRow` on an in-bounds window. -/
lemma sliceRow_getD (row : List Nat) :
    ∀ (x len i : Nat), i < len → x + len ≤ row.length →
    (sliceRow row x len).getD i 0 = row.getD (x + i) 0 := by
  induction row with
  | nil =>
    intro x len i hi h
    cases len with
    | zero => omega
    | succ len => simp at h
  | cons r rs ih =>
    intro x len i hi h
    cases len with
    | zero => omega
    | succ len =>
      cases x with
      | zero =>
        cases i with
        | zero => simp [sliceRow]
        | succ j =>
          simp only [sliceRow, List.getD_cons_succ, Nat.zero_add]
          simpa using ih 0 len j (by omega) (by simp only [List.length_cons] at h; omega)
      | succ x =>
        simp only [sliceRow]
        have hidx : x + 1 + i = (x + i) + 1 := by omega
        rw [hidx, List.getD_cons_succ]
        exact ih x (len + 1) i hi (by simp only [List.length_cons] at h; omega)

/-- Applying a group write preserves the frame's shape. -/
lemma applyGroup_shape (buf S : List (List Nat)) (g : TextGroup)
    (h1 : S.length = LCD_HEIGHT) (h2 : ∀ row ∈ S, row.length = LCD_WIDTH)
    (hy : g.y < LCD_HEIGHT) :
    (applyGroup buf S g).length = LCD_HEIGHT ∧
      ∀ row ∈ applyGroup buf S g, row.length = LCD_WIDTH := by
  constructor
  · rw [applyGroup, setRow_length, h1]
  · intro row hrow
    rcases setRow_mem _ _ _ _ hrow with hr | hr
    · subst hr
      rw [writeBytes_length]
      exact wf_row_len ⟨h1, h2⟩ hy
    · exact h2 row hr

/-- Cell-level description of one group write: inside the group's window the
updated buffer shows through, elsewhere the screen is untouched. -/
lemma applyGroup_getCell (buf S : List (List Nat)) (g : TextGroup)
    (hS : wellFormed S) (hbuf : wellFormed buf)
    (hy : g.y < LCD_HEIGHT) (hxl : g.x + g.length ≤ LCD_WIDTH)
    (p q : Nat) (hp : p < LCD_WIDTH) (hq : q < LCD_HEIGHT) :
    getCell (applyGroup buf S g) p q =
      if groupCovers g p q then getCell buf p q else getCell S p q := by
  unfold applyGroup getCell
  rw [setRow_getD]
  by_cases hqy : q = g.y
  · subst hqy
    rw [if_pos ⟨rfl, by rw [hS.1]; exact hy⟩, writeBytes_getD]
    have hslice_len : (groupBytes buf g).length = g.length := by
      unfold groupBytes
      exact sliceRow_length _ _ _ (by rw [wf_row_len hbuf hy]; exact hxl)
    rw [hslice_len, wf_row_len hS hy]
    by_cases hcov : g.x ≤ p ∧ p < g.x + g.length
    · rw [if_pos ⟨hcov.1, hcov.2, hp⟩, if_pos ⟨rfl, hcov.1, hcov.2⟩]
      unfold groupBytes
      rw [sliceRow_getD _ g.x g.length (p - g.x) (by omega)
        (by rw [wf_row_len hbuf hy]; exact hxl)]
      congr 1
      omega
    · rw [if_neg (by intro hc; exact hcov ⟨hc.1, hc.2.1⟩),
        if_neg (by intro hc; exact hcov ⟨hc.2.1, hc.2.2⟩)]
  · rw [if_neg (by intro hc; exact hqy hc.1),
      if_neg (by intro hc; exact hqy hc.1.symm)]

/-- Applying a list of group writes preserves the frame's shape. -/
lemma applyGroups_shape (buf : List (List Nat)) (gs : List TextGroup) :
    ∀ S, S.length = LCD_HEIGHT → (∀ row ∈ S, row.length = LCD_WIDTH) →
    (∀ g ∈ gs, g.y < LCD_HEIGHT) →
    (applyGroups buf S gs).length = LCD_HEIGHT ∧
      ∀ row ∈ applyGroups buf S gs, row.length = LCD_WIDTH := by
  induction gs with
  | nil =>
    intro S h1 h2 _
    exact ⟨h1, h2⟩
  | cons g gs ih =>
    intro S h1 h2 hg
    have hshape := applyGroup_shape buf S g h1 h2 (hg g (by simp))
    exact ih _ hshape.1 hshape.2 (fun g' h => hg g' (by simp [h]))

/-- Cell-level description of applying a whole diff: covered cells show the
updated buffer, uncovered cells keep the old screen contents. -/
lemma applyGroups_getCell (buf : List (List Nat)) (hbuf : wellFormed buf)
    (gs : List TextGroup) :
    ∀ S, wellFormed S →
    (∀ g ∈ gs, g.y < LCD_HEIGHT ∧ g.x + g.length ≤ LCD_WIDTH) →
    ∀ p q, p < LCD_WIDTH → q < LCD_HEIGHT →
    getCell (applyGroups buf S gs) p q =
      if coveredBy gs p q then getCell buf p q else getCell S p q := by
  induction gs with
  | nil =>
    intro S _ _ p q _ _
    simp [applyGroups, coveredBy]
  | cons g gs ih =>
    intro S hS hg p q hp hq
    have hS' : wellFormed (applyGroup buf S g) :=
      applyGroup_shape buf S g hS.1 hS.2 (hg g (by simp)).1
    have step : applyGroups buf S (g :: gs) = applyGroups buf (applyGroup buf S g) gs := rfl
    rw [step, ih _ hS' (fun g' h => hg g' (by simp [h])) p q hp hq]
    by_cases hcg : coveredBy gs p q
    · rw [if_pos hcg, if_pos ((coveredBy_cons g gs p q).mpr (Or.inr hcg))]
    · rw [if_neg hcg,
        applyGroup_getCell buf S g hS hbuf (hg g (by simp)).1 (hg g (by simp)).2 p q hp hq]
      by_cases hc : groupCovers g p q
      · rw [if_pos hc, if_pos ((coveredBy_cons g gs p q).mpr (Or.inl hc))]
      · rw [if_neg hc, if_neg (fun h => by
          rcases (coveredBy_cons g gs p q).mp h with h' | h'
          exacts [hc h', hcg h'])]

/-- Two well-formed frames agreeing on every in-range cell are equal. -/
lemma frame_ext (T U : List (List Nat)) (hT : wellFormed T) (hU : wellFormed U)
    (h : ∀ p q, p < LCD_WIDTH → q < LCD_HEIGHT → getCell T p q = getCell U p q) :
    T = U := by
  apply List.ext_getElem (by rw [hT.1, hU.1])
  intro q hq1 hq2
  apply List.ext_getElem
  · rw [hT.2 _ (List.getElem_mem hq1), hU.2 _ (List.getElem_mem hq2)]
  · intro p hp1 hp2
    have hq : q < LCD_HEIGHT := by rw [← hT.1]; exact hq1
    have hp : p < LCD_WIDTH := by
      rw [← hT.2 _ (List.getElem_mem hq1)]
      exact hp1
    have hcell := h p q hp hq
    unfold getCell at hcell
    rw [List.getD_eq_getElem _ _ hq1, List.getD_eq_getElem _ _ hq2] at hcell
    rw [List.getD_eq_getElem _ _ hp1, List.getD_eq_getElem _ _ hp2] at hcell
    exact hcell

/-- The buffer after `set_text` equals the new frame. -/
lemma setText_fst {A B : List (List Nat)} (hA : wellFormed A) (hB : wellFormed B) :
    (setText A B).1 = B :=
  setTextGo_fst A B 0 (wf_forall₂ hA hB)

/-- A cell is covered by the diff of `set_text` iff the old and new frames
differ there. -/
lemma setText_cover {A B : List (List Nat)} (hA : wellFormed A) (hB : wellFormed B)
    {p q : Nat} (hp : p < LCD_WIDTH) (hq : q < LCD_HEIGHT) :
    (coveredBy (setText A B).2 p q ↔ getCell A p q ≠ getCell B p q) := by
  rw [setText, setTextGo_cover A B 0 p q (wf_forall₂ hA hB)]
  constructor
  · rintro ⟨j, hj, hqj, hp', hne⟩
    have hjq : j = q := by omega
    subst hjq
    exact hne
  · intro hne
    refine ⟨q, ?_, by omega, ?_, hne⟩
    · rw [hA.1]
      exact hq
    · rw [wf_row_len hA hq]
      exact hp

/-- Diff groups of `set_text` stay in range. -/
lemma setText_bounds {A : List (List Nat)} (B : List (List Nat))
    (hA : wellFormed A) :
    ∀ g ∈ (setText A B).2, g.y < LCD_HEIGHT ∧ g.x + g.length ≤ LCD_WIDTH := by
  intro g hg
  have := setTextGo_bounds A B 0 hA.2 g hg
  refine ⟨?_, this.2⟩
  have h1 := this.1
  rw [hA.1] at h1
  omega

/-- A diff of a frame against itself produces no groups and leaves the row
unchanged. -/
lemma rowScan_self (y : Nat) (r : List Nat) :
    ∀ x, rowScan y x r r none = (r, []) := by
  induction r with
  | nil => intro x; simp [rowScan]
  | cons a r ih => intro x; simp [rowScan, ih]

lemma setTextGo_self (os : List (List Nat)) :
    ∀ y, setTextGo y os os = (os, []) := by
  induction os with
  | nil => intro y; simp [setTextGo]
  | cons o os ih => intro y; simp [setTextGo, rowScan_self, ih]

lemma blankText_wf : wellFormed blankText := by decide

/-- Every in-range cell of the blank frame is a space. -/
lemma getCell_blank {p q : Nat} (hp : p < LCD_WIDTH) (hq : q < LCD_HEIGHT) :
    getCell blankText p q = 32 := by
  unfold getCell blankText
  have h1 : (List.replicate LCD_HEIGHT (List.replicate LCD_WIDTH 32)).getD q []
      = List.replicate LCD_WIDTH 32 := by
    rw [List.getD_eq_getElem _ _ (by simpa using hq)]
    simp
  rw [h1, List.getD_eq_getElem _ _ (by simpa using hp)]
  simp

/-! ### Claim theorems -/

/-- C1: For every pair of well-formed 4×20 frames `A` and `B`, the diff of
`Lcd::set_text` (internal buffer `A`, new frame `B`) emits groups such that
applying each group's bytes (slices of the updated buffer) at its position
to a screen showing `A` yields exactly `B`, and no cell whose old value
equals its new value is included in any emitted group. -/
theorem set_text_diff_correct (A B : List (List Nat))
    (hA : wellFormed A) (hB : wellFormed B) :
    applyGroups (setText A B).1 A (setText A B).2 = B ∧
    ∀ g ∈ (setText A B).2, ∀ i, i < g.length →
      getCell A (g.x + i) g.y ≠ getCell B (g.x + i) g.y := by
  have hbuf : (setText A B).1 = B := setText_fst hA hB
  have hbounds := setText_bounds B hA
  constructor
  · rw [hbuf]
    have hshape := applyGroups_shape B (setText A B).2 A hA.1 hA.2
      (fun g h => (hbounds g h).1)
    apply frame_ext _ _ ⟨hshape.1, hshape.2⟩ hB
    intro p q hp hq
    rw [applyGroups_getCell B hB (setText A B).2 A hA hbounds p q hp hq]
    by_cases hcov : coveredBy (setText A B).2 p q
    · rw [if_pos hcov]
    · rw [if_neg hcov]
      by_contra hne
      exact hcov ((setText_cover hA hB hp hq).mpr hne)
  · intro g hg i hi hEq
    have hp : g.x + i < LCD_WIDTH := by
      have := (hbounds g hg).2
      omega
    have hq : g.y < LCD_HEIGHT := (hbounds g hg).1
    have hcov : coveredBy (setText A B).2 (g.x + i) g.y :=
      ⟨g, hg, rfl, by omega, by omega⟩
    exact (setText_cover hA hB hp hq).mp hcov hEq

/-- C1 witness: the diff correctness theorem applied to the blank frame and
a concrete frame. -/
theorem set_text_diff_correct_witness :
    applyGroups (setText blankText demoFrame).1 blankText
      (setText blankText demoFrame).2 = demoFrame :=
  (set_text_diff_correct blankText demoFrame (by decide) (by decide)).1

/-- C2: Every diff group emitted by `Lcd::set_text` lies within a single
row: its covered cells all have row index `g.y`, which is below the device
height, and `g.x + g.length ≤ 20`, the device width. -/
theorem set_text_groups_single_row (A B : List (List Nat))
    (hA : wellFormed A) (_hB : wellFormed B) :
    ∀ g ∈ (setText A B).2,
      g.y < LCD_HEIGHT ∧ g.x + g.length ≤ LCD_WIDTH ∧
      ∀ p q, groupCovers g p q → q = g.y := by
  intro g hg
  have h := setText_bounds B hA g hg
  exact ⟨h.1, h.2, fun p q hc => hc.1.symm⟩

/-- C2 witness: the single-row bounds applied to a concrete emitted group. -/
theorem set_text_groups_single_row_witness :
    (3 : Nat) < LCD_HEIGHT ∧ (0 : Nat) + 20 ≤ LCD_WIDTH := by
  have h := set_text_groups_single_row blankText demoFrame (by decide) (by decide)
    ⟨0, 3, 20⟩ (by decide)
  exact ⟨h.1, h.2.1⟩

/-- C3: Diffing a frame against an equal buffer yields no groups and leaves
the buffer untouched (so no serial writes are issued), and in particular
after any `set_text` the buffer equals the new frame, so diffing the same
frame again yields an empty group list. -/
theorem set_text_idempotent (A B : List (List Nat))
    (hA : wellFormed A) (hB : wellFormed B) :
    setText B B = (B, []) ∧ (setText (setText A B).1 B).2 = [] := by
  have h1 : setText B B = (B, []) := setTextGo_self B 0
  refine ⟨h1, ?_⟩
  rw [setText_fst hA hB, h1]

/-- C3 witness: the idempotence theorem applied to a concrete frame. -/
theorem set_text_idempotent_witness :
    setText demoFrame demoFrame = (demoFrame, []) :=
  (set_text_idempotent blankText demoFrame (by decide) (by decide)).1

/-- C4: `LcdCommand::into_bytes` is a pure function emitting the sentinel
`0xFE` and the tag, then a fixed parameter block per variant:
`SetSize{20,4}` encodes to `[0xFE, 0xD1, 20, 4]`, `Clear` to `[0xFE, 0x58]`,
and `SaveCustomCharacter` — the only variant whose parameter block is not
small and fixed-per-variant — encodes to `[0xFE, 0xC1]` followed by exactly
11 bytes: `0xC1`, the bank, the tile tag, and the tile's 8 pixel rows. -/
theorem lcd_command_into_bytes_spec (bank : Nat) (ch : CustomCharacter) :
    (∀ cmd : LcdCommand, cmd.into_bytes = COMMAND_BYTE :: cmd.tag :: cmd.params) ∧
    (LcdCommand.SetSize 20 4).into_bytes = [0xFE, 0xD1, 20, 4] ∧
    LcdCommand.Clear.into_bytes = [0xFE, 0x58] ∧
    (LcdCommand.SaveCustomCharacter bank ch).into_bytes =
      0xFE :: 0xC1 :: (0xC1 :: bank :: ch.tag :: ch.pixels) ∧
    (0xC1 :: bank :: ch.tag :: ch.pixels).length = 11 ∧
    (∀ cmd : LcdCommand, (∀ b c, cmd ≠ LcdCommand.SaveCustomCharacter b c) →
      cmd.params.length ≤ 3) := by
  refine ⟨fun cmd => rfl, rfl, rfl, ?_, ?_, ?_⟩
  · simp [LcdCommand.into_bytes, LcdCommand.tag, LcdCommand.params, COMMAND_BYTE]
  · cases ch <;> simp [CustomCharacter.pixels]
  · intro cmd hne
    cases cmd <;> simp [LcdCommand.params, Color.to_bytes]
    exact (hne _ _ rfl).elim

/-- C4 witness: the encoding facts at a concrete command. -/
theorem lcd_command_into_bytes_spec_witness :
    (LcdCommand.SetSize 20 4).into_bytes = [0xFE, 0xD1, 20, 4] ∧
    LcdCommand.Clear.params.length ≤ 3 := by
  have h := lcd_command_into_bytes_spec 0 CustomCharacter.Bottom
  exact ⟨h.2.1, h.2.2.2.2.2 LcdCommand.Clear (fun b c hne => nomatch hne)⟩

/-- C5: `get_jumbo_character` succeeds exactly on the bytes of
`'0'..'9'` (48–57), `' '` (32) and `':'` (58); any other byte is a hard
error (`none`), never a silent blank substitution, and supported bytes get
their fixed 3-row tile sequence (shown here for `'0'` and `':'`). -/
theorem get_jumbo_character_supported (c : Nat) :
    ((get_jumbo_character c).isSome ↔ ((48 ≤ c ∧ c ≤ 57) ∨ c = 32 ∨ c = 58)) ∧
    get_jumbo_character 48 =
      some [[HBR, BOT, HBL], [FUL, EMT, FUL], [FBR, BOT, FBL]] ∧
    get_jumbo_character 58 = some [[FUL], [EMT], [FUL]] := by
  refine ⟨?_, rfl, rfl⟩
  constructor
  · intro hSome
    by_contra hno
    have hnone : get_jumbo_character c = none := by
      unfold get_jumbo_character
      iterate 12 rw [if_neg (by omega)]
    rw [hnone] at hSome
    exact absurd hSome (by simp)
  · rintro (⟨hlo, hhi⟩ | rfl | rfl)
    · interval_cases c <;> rfl
    · rfl
    · rfl

/-- C6: Rendering `"10:23"` as jumbo text succeeds, produces three rows
each of length at most 20 (in fact exactly the device width), and the
total rendered width equals the sum, over the input characters, of each
character's width (the maximum tile-row length of its definition) plus one
column of spacing. The rendered rows equal the source test's expectation. -/
theorem jumbo_width_invariant :
    write_jumbo_text blank3 str1023 = some (jumboExpected, 18) ∧
    (str1023.map (fun c => jumboWidth ((get_jumbo_character c).getD []) + 1)).sum = 18 ∧
    (∀ row ∈ jumboExpected, row.length ≤ LCD_WIDTH) := by
  refine ⟨by decide, by decide, by decide⟩

/-- C7 counterexample: after an `Off` tick the buffer is blank, but the
next frame's diff does not include every cell as a diff group — the frame
`offThenFrame` is well-formed yet its blank cell `(0, 0)` is covered by no
emitted group, because it equals the cleared buffer there. -/
theorem off_full_repaint_counterexample :
    (onTickOff demoFrame).1 = blankText ∧
    wellFormed offThenFrame ∧
    ¬ coveredBy (setText blankText offThenFrame).2 0 0 := by
  exact ⟨rfl, by decide, by decide⟩

/-- C7 (amended): A tick in `Off` mode turns the backlight off, sends a
`Clear` command, and resets the in-memory buffer to all spaces, so that the
first `Clock` tick after an `Off` tick repaints every cell whose new value
differs from blank: a cell is covered by a diff group iff its byte in the
new frame is not a space. -/
theorem off_tick_resets_buffer (text B : List (List Nat)) (hB : wellFormed B) :
    onTickOff text = (blankText, [LcdCommand.BacklightOff, LcdCommand.Clear]) ∧
    ∀ p q, p < LCD_WIDTH → q < LCD_HEIGHT →
      (coveredBy (setText blankText B).2 p q ↔ getCell B p q ≠ 32) := by
  refine ⟨rfl, ?_⟩
  intro p q hp hq
  rw [setText_cover blankText_wf hB hp hq, getCell_blank hp hq]
  exact ne_comm

/-- C7 witness: the amended theorem at a concrete frame and cell. -/
theorem off_tick_resets_buffer_witness :
    coveredBy (setText blankText offThenFrame).2 1 0 ↔
      getCell offThenFrame 1 0 ≠ 32 :=
  (off_tick_resets_buffer demoFrame offThenFrame (by decide)).2 1 0
    (by decide) (by decide)

/-- C8 counterexample: with a failing first tick and a second tick
scheduled, the loop of `Resource::spawn_task` executes only one tick — the
error is logged, but the next scheduled tick does not run, contrary to the
claim that the loop continues. -/
theorem tick_failure_counterexample :
    (spawnTaskRun [Except.error "boom", Except.ok ()]).1 = 1 ∧
    (spawnTaskRun [Except.error "boom", Except.ok ()]).1 ≠ 2 ∧
    (spawnTaskRun [Except.error "boom", Except.ok ()]).2 =
      ["Resource LCD failed with boom"] :=
  ⟨rfl, by decide, rfl⟩

/-- C8 (amended): when `on_tick` fails, the failure is logged once (with
the resource name and error) and the resource's loop terminates: however
many ticks follow the failing one in the schedule, no further tick runs —
exactly the successful ticks before the failure plus the failing tick
itself execute. -/
theorem tick_failure_stops_loop (n : Nat) (e : String)
    (rest : List (Except String Unit)) :
    spawnTaskRun (List.replicate n (Except.ok ()) ++ Except.error e :: rest) =
      (n + 1, ["Resource LCD failed with " ++ e]) := by
  induction n with
  | zero => rfl
  | succ n ih =>
    simp only [List.replicate_succ, List.cons_append, spawnTaskRun, List.append_eq, ih]

/-- C9: `Lcd::set_color` emits no command and leaves the stored color
unchanged when the requested color equals the last-applied color; when it
differs, it emits exactly one `SetColor` command and stores the requested
color. -/
theorem set_color_skips_unchanged (current requested : Color) :
    (current = requested → set_color current requested = (current, [])) ∧
    (current ≠ requested →
      set_color current requested = (requested, [LcdCommand.SetColor requested])) := by
  constructor
  · intro h
    simp [set_color, h]
  · intro h
    simp [set_color, h]

/-- C9 witness: both cases of the color-skip theorem at concrete colors. -/
theorem set_color_skips_unchanged_witness :
    set_color colorA colorA = (colorA, []) ∧
    set_color colorA colorB = (colorB, [LcdCommand.SetColor colorB]) :=
  ⟨(set_color_skips_unchanged colorA colorA).1 rfl,
   (set_color_skips_unchanged colorA colorB).2 (by decide)⟩

/-- C10 counterexample: dropping the `Lcd` issues no commands at all — in
particular no `Clear` — so the claim that destruction clears the physical
screen fails. -/
theorem drop_clears_screen_counterexample :
    lcdDrop.1 = [] ∧ LcdCommand.Clear ∉ lcdDrop.1 :=
  ⟨rfl, by simp [lcdDrop]⟩

/-- C10 (amended): when the `Lcd` is destroyed, its `Drop` implementation
only logs a closing message; it sends no command and does not clear the
screen. -/
theorem drop_only_logs : lcdDrop = ([], ["Closing resource LCD"]) := rfl
